import Mathlib

/-!
Shallow embedding of the libcc1 marshalling layer (src/libcc1/marshall.hh)
of Harvey-OS/gcc, together with proofs of the specified properties.

The repository ships only the header `marshall.hh`; the implementations of
`marshall_intlike`, `unmarshall_intlike`, `unmarshall_check`, the string,
array and enum codecs live in `marshall.cc`, which is not part of the
source tree here.  Those operations are therefore modelled from the spec
(`spec.md`): a connection is a byte stream, every wire value is a one-byte
type tag followed by a type-specific payload, integers travel as a single
canonical fixed-width (8-byte) unsigned representation, strings as a
length-prefixed run of raw bytes, arrays as a count followed by the
elements' fields in a fixed order.  The tag constants and the byte order
(little-endian) are implementation choices the spec leaves free, fixed
here once and used consistently on both the encode and the decode side.

Decoders are written in explicit state-passing style: they take the list
of bytes remaining on the connection and return a status, the decoded
value, and the bytes left unread, so that statements about exact
consumption ("consumes no bytes beyond the tag") are direct equalities.
-/

namespace cc1_plugin

/-- Modelled from the spec: the two-valued `status` type of status.hh
(not under src/): `OK` / `FAIL`, the in-process outcome of every
marshalling operation. -/
inductive status where
  | OK : status
  | FAIL : status
deriving DecidableEq, Repr

export status (OK FAIL)

/-- `protocol_int` is `unsigned long long` (marshall.hh line 32): the one
kind of integer ever sent over the wire.  Modelled as `Nat`; the
representable range is `< 2 ^ 64`. -/
def protocolIntWidth : Nat := 64

/-- Modelled from the spec: the integer payload is a fixed-width 8-byte
unsigned integer. -/
def protocolIntSize : Nat := 8

/-- Modelled from the spec: the type-tag discriminator for integer-like
wire values (one fixed-width code per kind; exact constant is an
implementation choice, used consistently both ways). -/
def intTag : Nat := 0

/-- Modelled from the spec: the type-tag discriminator for string wire
values. -/
def stringTag : Nat := 1

/-- Modelled from the spec: the type-tag discriminator for typed-array
wire values. -/
def arrayTag : Nat := 2

/-- Little-endian byte encoding of `v` in `n` bytes (the canonical
fixed-width integer payload, truncated mod `256 ^ n`). -/
def natToLE : Nat → Nat → List Nat
  | 0, _ => []
  | n + 1, v => v % 256 :: natToLE n (v / 256)

/-- Little-endian byte decoding, inverse of `natToLE`. -/
def leToNat : List Nat → Nat
  | [] => 0
  | b :: bs => b + 256 * leToNat bs

/-- The 8-byte canonical encoding of a `protocol_int` payload. -/
def encodeInt (v : Nat) : List Nat := natToLE protocolIntSize v

/-- Decoding of an 8-byte canonical integer payload. -/
def decodeInt (bs : List Nat) : Nat := leToNat bs

/-- Modelled from the spec: the connection primitive `read(n)`, which
either delivers exactly `n` bytes (and the remainder of the stream) or
fails because the stream ends early; never a partial buffer on success. -/
def readBytes : Nat → List Nat → Option (List Nat × List Nat)
  | 0, bs => some ([], bs)
  | _ + 1, [] => none
  | n + 1, b :: bs =>
    match readBytes n bs with
    | some (tk, rest) => some (b :: tk, rest)
    | none => none

/-- Result of an integer-like decode: status, decoded value (0 when the
decode failed; the out-argument is not set on failure), and the bytes
left on the connection. -/
structure IntResult where
  st : status
  val : Nat
  rest : List Nat
deriving DecidableEq, Repr

/-- Modelled from the spec: `marshall_intlike` (declared marshall.hh
lines 37-40) writes the integer type tag, then the value as a single
canonical 8-byte unsigned integer.  The model returns the bytes put on
the wire. -/
def marshall_intlike (v : Nat) : List Nat := intTag :: encodeInt v

/-- Modelled from the spec: `unmarshall_intlike` (declared marshall.hh
lines 42-45) reads a type marker; if it is not the integer marker it
returns `FAIL` without consuming further bytes beyond the tag; otherwise
it reads the fixed-width payload (`FAIL` if the stream ends early) and
returns `OK` with the value. -/
def unmarshall_intlike (bs : List Nat) : IntResult :=
  match bs with
  | [] => ⟨FAIL, 0, []⟩
  | t :: rest =>
    if t = intTag then
      match readBytes protocolIntSize rest with
      | some (payload, rest1) => ⟨OK, decodeInt payload, rest1⟩
      | none => ⟨FAIL, 0, rest⟩
    else
      ⟨FAIL, 0, rest⟩

/-- Result of `unmarshall_check`: status and the bytes left. -/
structure CheckResult where
  st : status
  rest : List Nat
deriving DecidableEq, Repr

/-- Modelled from the spec: `unmarshall_check` (declared marshall.hh
lines 34-36) reads an integer as `unmarshall_intlike` does and
additionally fails when the decoded value differs from `v`; any mismatch
is reported by the same uniform `FAIL`. -/
def unmarshall_check (v : Nat) (bs : List Nat) : CheckResult :=
  match unmarshall_intlike bs with
  | ⟨OK, w, rest⟩ => ⟨if w = v then OK else FAIL, rest⟩
  | ⟨FAIL, _, rest⟩ => ⟨FAIL, rest⟩

/- ## String codec -/

/-- Result of a string decode: status, decoded bytes (empty when the
decode failed; nothing is handed back on failure), bytes left. -/
structure StrResult where
  st : status
  str : List Nat
  rest : List Nat
deriving DecidableEq, Repr

/-- Modelled from the spec: the string marshaller (the `const char *`
overload declared marshall.hh lines 77-78) writes a string type tag,
then the byte length of the string as a canonical 8-byte integer, then
the raw bytes; no terminator on the wire, an empty string encodes as
length zero. -/
def marshall_string (s : List Nat) : List Nat :=
  stringTag :: (encodeInt s.length ++ s)

/-- Modelled from the spec: the string unmarshaller (the `char **`
overload declared marshall.hh lines 80-82) reads the tag (`FAIL` if it
is not the string tag, consuming only the tag), reads the length, then
reads exactly that many payload bytes, failing if the stream ends
early; on success ownership of the buffer passes to the caller. -/
def unmarshall_string (bs : List Nat) : StrResult :=
  match bs with
  | [] => ⟨FAIL, [], []⟩
  | t :: rest =>
    if t = stringTag then
      match readBytes protocolIntSize rest with
      | some (lenB, rest1) =>
        match readBytes (decodeInt lenB) rest1 with
        | some (payload, rest2) => ⟨OK, payload, rest2⟩
        | none => ⟨FAIL, [], rest1⟩
      | none => ⟨FAIL, [], rest⟩
    else
      ⟨FAIL, [], rest⟩

/- ## The generic templates of marshall.hh (present in src/) -/

/-- The C++ integral conversion `(protocol_int) v` applied to a signed
scalar value: reduction of `v` modulo `2 ^ 64` into `unsigned long
long`. -/
def toProtocolInt (v : Int) : Nat := (v % (2 : Int) ^ 64).toNat

/-- `marshall<T>` (marshall.hh lines 49-53): converts the scalar to
`protocol_int` and calls `marshall_intlike`.  The scalar value of the
logical type `T` is modelled as an `Int`. -/
def marshallT (v : Int) : List Nat := marshall_intlike (toProtocolInt v)

/-- `unmarshall<T>` (marshall.hh lines 59-68) for an unsigned scalar
type `T` of bit width `w`: calls `unmarshall_intlike` and assigns the
result to the out-argument; the C++ assignment `*scalar = result`
narrows by plain unsigned conversion, reduction mod `2 ^ w`, with no
range check. -/
def unmarshallT_unsigned (w : Nat) (bs : List Nat) : IntResult :=
  match unmarshall_intlike bs with
  | ⟨OK, r, rest⟩ => ⟨OK, r % 2 ^ w, rest⟩
  | ⟨FAIL, _, rest⟩ => ⟨FAIL, 0, rest⟩

/-- Reinterpretation of the low `w` bits of `u` as a `w`-bit two's
complement signed value: the value a C++ narrowing conversion to a
signed type of width `w` produces. -/
def toSigned (w : Nat) (u : Nat) : Int :=
  if u % 2 ^ w < 2 ^ (w - 1) then ((u % 2 ^ w : Nat) : Int)
  else ((u % 2 ^ w : Nat) : Int) - 2 ^ w

/-- Result of a signed-scalar decode: status, value, bytes left. -/
structure SIntResult where
  st : status
  val : Int
  rest : List Nat
deriving DecidableEq, Repr

/-- `unmarshall<T>` (marshall.hh lines 59-68) for a signed scalar type
`T` of bit width `w`: calls `unmarshall_intlike` and narrows the
canonical unsigned result into `T` by two's complement
reinterpretation of the low `w` bits. -/
def unmarshallT_signed (w : Nat) (bs : List Nat) : SIntResult :=
  match unmarshall_intlike bs with
  | ⟨OK, r, rest⟩ => ⟨OK, toSigned w r, rest⟩
  | ⟨FAIL, _, rest⟩ => ⟨FAIL, 0, rest⟩

/- ## Enum decoders -/

/-- Modelled from the spec: the enum overloads of `unmarshall`
(marshall.hh lines 70-75, for `gcc_c_symbol_kind`, `gcc_qualifiers`
and `gcc_c_oracle_request`) call the integer codec and then validate
that the decoded integer is one of the enumeration's known values,
failing otherwise.  The known value set of each enumeration comes from
gcc-c-interface.h, which is not under src/, so it is abstracted here as
the parameter `known`. -/
def unmarshall_enum (known : List Nat) (bs : List Nat) : IntResult :=
  match unmarshall_intlike bs with
  | ⟨OK, r, rest⟩ =>
    if r ∈ known then ⟨OK, r, rest⟩ else ⟨FAIL, 0, rest⟩
  | ⟨FAIL, _, rest⟩ => ⟨FAIL, 0, rest⟩

/- ## Array codec, with explicit allocation accounting

The spec's ownership contract for the array decoder (marshall.hh lines
84-90) is about resources: on failure partway through, the buffers of
already-decoded elements are released, not leaked and not returned; on
success the caller owns every element.  To make that provable the
decoder threads an explicit heap: a set of live allocation identifiers.
Each decoded string field allocates one buffer; releasing removes it. -/

/-- The allocator state: a fresh-id counter and the identifiers of the
live (allocated, not yet freed) buffers. -/
structure Heap where
  next : Nat
  live : List Nat
deriving DecidableEq, Repr

/-- Allocate a fresh buffer; returns its identifier. -/
def Heap.alloc (h : Heap) : Nat × Heap :=
  (h.next, ⟨h.next + 1, h.next :: h.live⟩)

/-- Release a buffer (`delete[]` in the source's ownership contract). -/
def Heap.free (h : Heap) (r : Nat) : Heap :=
  ⟨h.next, h.live.erase r⟩

/-- Modelled from the spec: an array element is a fixed-shape record of
a small number of integer-like and string-like fields; one of each
suffices to exercise the ownership contract.  This is the element as it
exists on the sending side. -/
structure WireElem where
  kind : Nat
  name : List Nat
deriving DecidableEq, Repr

/-- A decoded array element as handed to the caller: the integer field,
the identifier of the allocated buffer holding the string field, and
the buffer's contents. -/
structure DecodedElem where
  kind : Nat
  nameBuf : Nat
  name : List Nat
deriving DecidableEq, Repr

/-- Result of an element or array decode: status, decoded value
(`none` on failure: nothing partial is handed back), bytes left, and
the heap after the call. -/
structure ArrResult (α : Type) where
  st : status
  val : Option α
  rest : List Nat
  heap : Heap
deriving DecidableEq, Repr

/-- Modelled from the spec: the array marshaller (marshall.hh line 84)
writes an array type tag, the element count, then each element's fields
in a fixed order (integer field, then string field), each via the
integer or string codec. -/
def marshall_elem (e : WireElem) : List Nat :=
  marshall_intlike e.kind ++ marshall_string e.name

/-- Modelled from the spec: the complete encoding of an array value. -/
def marshall_array (es : List WireElem) : List Nat :=
  arrayTag :: (encodeInt es.length ++ (es.map marshall_elem).flatten)

/-- Modelled from the spec: heap-aware string field decode inside the
array decoder.  It reads tag and length, allocates a buffer of the
declared size, then reads the payload into it; if the stream ends early
the buffer is released before returning `FAIL`. -/
def unmarshall_string_field (bs : List Nat) (h : Heap) :
    ArrResult (Nat × List Nat) :=
  match bs with
  | [] => ⟨FAIL, none, [], h⟩
  | t :: rest =>
    if t = stringTag then
      match readBytes protocolIntSize rest with
      | some (lenB, rest1) =>
        let a := h.alloc
        match readBytes (decodeInt lenB) rest1 with
        | some (payload, rest2) => ⟨OK, some (a.1, payload), rest2, a.2⟩
        | none => ⟨FAIL, none, rest1, a.2.free a.1⟩
      | none => ⟨FAIL, none, rest, h⟩
    else
      ⟨FAIL, none, rest, h⟩

/-- Modelled from the spec: decode of one array element, its fields in
the same fixed order used for encoding. -/
def unmarshall_elem (bs : List Nat) (h : Heap) : ArrResult DecodedElem :=
  match unmarshall_intlike bs with
  | ⟨OK, k, rest⟩ =>
    match unmarshall_string_field rest h with
    | ⟨OK, some sf, rest1, h1⟩ => ⟨OK, some ⟨k, sf.1, sf.2⟩, rest1, h1⟩
    | ⟨_, _, rest1, h1⟩ => ⟨FAIL, none, rest1, h1⟩
  | ⟨FAIL, _, rest⟩ => ⟨FAIL, none, rest, h⟩

/-- Modelled from the spec: decode of `n` consecutive elements.  If a
later element fails, the buffers of the elements already decoded are
released on the way out, and the whole operation reports `FAIL` with no
partial array. -/
def unmarshall_elems : Nat → List Nat → Heap → ArrResult (List DecodedElem)
  | 0, bs, h => ⟨OK, some [], bs, h⟩
  | n + 1, bs, h =>
    match unmarshall_elem bs h with
    | ⟨OK, some e, rest, h1⟩ =>
      match unmarshall_elems n rest h1 with
      | ⟨OK, some es, rest1, h2⟩ => ⟨OK, some (e :: es), rest1, h2⟩
      | ⟨_, _, rest1, h2⟩ => ⟨FAIL, none, rest1, h2.free e.nameBuf⟩
    | ⟨_, _, rest, h1⟩ => ⟨FAIL, none, rest, h1⟩

/-- Modelled from the spec: the array unmarshaller (the
`gcc_type_array **` overload declared marshall.hh lines 86-90) reads
the array tag (`FAIL` if mismatched), reads the count, then decodes
exactly that many elements, failing the whole operation — and releasing
any partially-constructed elements — if any single element's decode
fails. -/
def unmarshall_array (bs : List Nat) (h : Heap) :
    ArrResult (List DecodedElem) :=
  match bs with
  | [] => ⟨FAIL, none, [], h⟩
  | t :: rest =>
    if t = arrayTag then
      match readBytes protocolIntSize rest with
      | some (lenB, rest1) => unmarshall_elems (decodeInt lenB) rest1 h
      | none => ⟨FAIL, none, rest, h⟩
    else
      ⟨FAIL, none, rest, h⟩


/-- A sample wire image for the array decoder: the array tag, a declared
count of five, two complete elements, then a third element whose string
field declares three payload bytes the stream does not deliver. -/
def exampleTruncatedArrayBytes : List Nat :=
  arrayTag :: (encodeInt 5 ++
    (marshall_elem ⟨7, [65]⟩ ++
      (marshall_elem ⟨8, [66]⟩ ++
        (marshall_intlike 9 ++ (stringTag :: encodeInt 3)))))

/-- A sample complete two-element array wire image. -/
def exampleOkArrayBytes : List Nat :=
  marshall_array [⟨7, [65]⟩, ⟨8, [66, 0]⟩]

/- ## Basic lemmas about the byte-level encoding -/

theorem natToLE_length (n v : Nat) : (natToLE n v).length = n := by
  induction n generalizing v with
  | zero => rfl
  | succ n ih => simp [natToLE, ih]

theorem mod_mul_decomp (v m n : Nat) : v % (m * n) = v % m + m * (v / m % n) := by
  have h := Nat.div_add_mod (v % (m * n)) m
  rw [Nat.mod_mul_right_div_self, Nat.mod_mod_of_dvd v ⟨n, rfl⟩] at h
  rw [← h, Nat.add_comm]

theorem leToNat_natToLE (n v : Nat) : leToNat (natToLE n v) = v % 256 ^ n := by
  induction n generalizing v with
  | zero => simp [natToLE, leToNat, Nat.mod_one]
  | succ n ih =>
    simp only [natToLE, leToNat, ih]
    rw [pow_succ', mod_mul_decomp]

theorem readBytes_append (n : Nat) (xs ys : List Nat) (h : xs.length = n) :
    readBytes n (xs ++ ys) = some (xs, ys) := by
  induction n generalizing xs with
  | zero =>
    have : xs = [] := List.eq_nil_of_length_eq_zero h
    simp [this, readBytes]
  | succ n ih =>
    match xs with
    | [] => simp at h
    | x :: xs =>
      simp only [List.length_cons, Nat.succ.injEq] at h
      simp [readBytes, ih xs h]

theorem readBytes_some_spec (n : Nat) :
    ∀ bs tk rest, readBytes n bs = some (tk, rest) →
      tk.length = n ∧ bs = tk ++ rest := by
  induction n with
  | zero =>
    intro bs tk rest h
    simp only [readBytes, Option.some.injEq, Prod.mk.injEq] at h
    simp [← h.1, ← h.2]
  | succ n ih =>
    intro bs tk rest h
    match bs with
    | [] => simp [readBytes] at h
    | b :: bs =>
      simp only [readBytes] at h
      cases hr : readBytes n bs with
      | none => rw [hr] at h; simp at h
      | some p =>
        obtain ⟨tk1, rest1⟩ := p
        rw [hr] at h
        simp only [Option.some.injEq, Prod.mk.injEq] at h
        obtain ⟨h1, h2⟩ := h
        have hs := ih bs tk1 rest1 hr
        subst h2
        simp [← h1, hs.1, hs.2]

theorem readBytes_eq_some (n : Nat) (bs tk rest : List Nat) :
    readBytes n bs = some (tk, rest) ↔ tk.length = n ∧ bs = tk ++ rest := by
  constructor
  · exact readBytes_some_spec n bs tk rest
  · rintro ⟨h1, rfl⟩
    exact readBytes_append n tk rest h1

theorem readBytes_short (n : Nat) (bs : List Nat) (h : bs.length < n) :
    readBytes n bs = none := by
  induction n generalizing bs with
  | zero => simp at h
  | succ n ih =>
    match bs with
    | [] => rfl
    | b :: bs =>
      simp only [List.length_cons] at h
      simp [readBytes, ih bs (by omega)]

theorem pow_256_8 : 256 ^ 8 = 2 ^ 64 := by norm_num

/-- Round trip of the canonical integer payload: 8-byte little-endian
encode then decode reduces mod `2 ^ 64`. -/
theorem decodeInt_encodeInt (v : Nat) : decodeInt (encodeInt v) = v % 2 ^ 64 := by
  rw [decodeInt, encodeInt, leToNat_natToLE, protocolIntSize, pow_256_8]

/-- Shared helper: decoding right after an integer-like encode succeeds,
yields the value mod `2 ^ 64`, and consumes exactly the written bytes. -/
theorem unmarshall_marshall_intlike (v : Nat) (extra : List Nat) :
    unmarshall_intlike (marshall_intlike v ++ extra) = ⟨OK, v % 2 ^ 64, extra⟩ := by
  simp only [marshall_intlike, unmarshall_intlike, List.cons_append, if_pos rfl]
  rw [readBytes_append protocolIntSize (encodeInt v) extra (natToLE_length _ _)]
  simp [decodeInt_encodeInt]



/- ## Arithmetic of the C++ integral conversions -/

theorem toProtocolInt_lt (v : Int) : toProtocolInt v < 2 ^ 64 := by
  have h0 : (0:Int) ≤ v % 2 ^ 64 := Int.emod_nonneg v (by positivity)
  have h1 : v % 2 ^ 64 < 2 ^ 64 := Int.emod_lt_of_pos v (by positivity)
  have h2 : (2:Nat) ^ 64 = 18446744073709551616 := by norm_num
  have h3 : (2:Int) ^ 64 = 18446744073709551616 := by norm_num
  unfold toProtocolInt
  rw [h2]
  rw [h3] at h0 h1
  omega

/-- The two C++ narrowing conversions cancel: converting a `w`-bit
signed value to `protocol_int` and narrowing the low `w` bits back to a
signed type of width `w` is the identity, for every `w ≤ 64`. -/
theorem toSigned_toProtocolInt (w : Nat) (v : Int)
    (hw1 : 1 ≤ w) (hw2 : w ≤ 64)
    (hlo : -(2 ^ (w - 1)) ≤ v) (hhi : v < 2 ^ (w - 1)) :
    toSigned w (toProtocolInt v) = v := by
  have h0 : (0:Int) ≤ v % 2 ^ 64 := Int.emod_nonneg v (by positivity)
  have hcast : ((toProtocolInt v : Nat) : Int) = v % 2 ^ 64 := by
    unfold toProtocolInt
    exact Int.toNat_of_nonneg h0
  have hdvd : ((2:Int) ^ w) ∣ (2:Int) ^ 64 := pow_dvd_pow 2 hw2
  have hkey : ((toProtocolInt v % 2 ^ w : Nat) : Int) = v % 2 ^ w := by
    push_cast
    rw [hcast, Int.emod_emod_of_dvd v hdvd]
  have hle : (2:Int) ^ (w - 1) ≤ 2 ^ w := pow_le_pow_right₀ one_le_two (by omega)
  have hcastpow : (((2:Nat) ^ (w - 1) : Nat) : Int) = (2:Int) ^ (w - 1) := by
    push_cast
    ring
  have hw2d : ((2:Int) ^ (w - 1)) * 2 = 2 ^ w := by
    rw [← pow_succ]
    congr 1
    omega
  unfold toSigned
  by_cases hv : 0 ≤ v
  · have hvlt : v < 2 ^ w := lt_of_lt_of_le hhi hle
    have hvmod : v % 2 ^ w = v := Int.emod_eq_of_lt hv hvlt
    have hc : toProtocolInt v % 2 ^ w < 2 ^ (w - 1) := by
      have hI : ((toProtocolInt v % 2 ^ w : Nat) : Int)
          < (((2:Nat) ^ (w - 1) : Nat) : Int) := by
        rw [hkey, hvmod, hcastpow]
        exact hhi
      exact_mod_cast hI
    rw [if_pos hc, hkey, hvmod]
  · push_neg at hv
    have hvmod : v % 2 ^ w = v + 2 ^ w := by
      have h1 : (v + 2 ^ w * 1) % 2 ^ w = v % 2 ^ w :=
        Int.add_mul_emod_self_left v (2 ^ w) 1
      have h2 : (v + 2 ^ w) % 2 ^ w = v % 2 ^ w := by
        rw [← h1]
        ring_nf
      rw [← h2]
      refine Int.emod_eq_of_lt (by linarith) (by linarith)
    have hc : ¬ (toProtocolInt v % 2 ^ w < 2 ^ (w - 1)) := by
      have hI : (((2:Nat) ^ (w - 1) : Nat) : Int)
          ≤ ((toProtocolInt v % 2 ^ w : Nat) : Int) := by
        rw [hkey, hvmod, hcastpow]
        linarith
      have hn : (2:Nat) ^ (w - 1) ≤ toProtocolInt v % 2 ^ w := by
        exact_mod_cast hI
      omega
    rw [if_neg hc, hkey, hvmod]
    ring


/- ## Ownership accounting for the array decoder -/

/-- The heap-aware string field decode never leaks: on `FAIL` it hands
nothing back and the live allocations are exactly what they were before
the call; on `OK` the live allocations grow by exactly the one buffer
returned to the caller. -/
theorem string_field_heap (bs : List Nat) (h : Heap) :
    ((unmarshall_string_field bs h).st = FAIL →
        (unmarshall_string_field bs h).val = none ∧
          (unmarshall_string_field bs h).heap.live = h.live) ∧
      ((unmarshall_string_field bs h).st = OK →
        ∃ sf, (unmarshall_string_field bs h).val = some sf ∧
          (unmarshall_string_field bs h).heap.live = sf.1 :: h.live) := by
  match bs with
  | [] => simp [unmarshall_string_field]
  | t :: rest =>
    by_cases ht : t = stringTag
    · subst ht
      cases h1 : readBytes protocolIntSize rest with
      | none => simp [unmarshall_string_field, h1]
      | some p =>
        obtain ⟨lenB, rest1⟩ := p
        cases h2 : readBytes (decodeInt lenB) rest1 with
        | none =>
          simp [unmarshall_string_field, h1, h2, Heap.alloc, Heap.free,
            List.erase_cons_head]
        | some q =>
          obtain ⟨payload, rest2⟩ := q
          constructor
          · intro hst
            simp [unmarshall_string_field, h1, h2, Heap.alloc] at hst
          · intro _
            refine ⟨(h.next, payload), ?_, ?_⟩ <;>
              simp [unmarshall_string_field, h1, h2, Heap.alloc]
    · simp [unmarshall_string_field, ht]

/-- One element decode never leaks: on `FAIL` nothing is handed back
and the live allocations are unchanged; on `OK` they grow by exactly
the returned element's owned buffer. -/
theorem elem_heap (bs : List Nat) (h : Heap) :
    ((unmarshall_elem bs h).st = FAIL →
        (unmarshall_elem bs h).val = none ∧
          (unmarshall_elem bs h).heap.live = h.live) ∧
      ((unmarshall_elem bs h).st = OK →
        ∃ e, (unmarshall_elem bs h).val = some e ∧
          (unmarshall_elem bs h).heap.live = e.nameBuf :: h.live) := by
  cases hint : unmarshall_intlike bs with
  | mk st v rest =>
    cases st with
    | FAIL => simp [unmarshall_elem, hint]
    | OK =>
      have hsf := string_field_heap rest h
      cases hs : unmarshall_string_field rest h with
      | mk st2 val2 rest2 h2 =>
        cases st2 with
        | FAIL =>
          have hff := hsf.1 (by rw [hs])
          rw [hs] at hff
          have hval2 : val2 = none := hff.1
          have hl2 : h2.live = h.live := hff.2
          subst hval2
          constructor
          · intro _
            refine ⟨?_, ?_⟩ <;> simp [unmarshall_elem, hint, hs, hl2]
          · intro hok
            simp [unmarshall_elem, hint, hs] at hok
        | OK =>
          obtain ⟨sf, hval2, hl2⟩ := hsf.2 (by rw [hs])
          rw [hs] at hval2 hl2
          have hval2a : val2 = some sf := hval2
          have hl2a : h2.live = sf.1 :: h.live := hl2
          subst hval2a
          constructor
          · intro hf
            simp [unmarshall_elem, hint, hs] at hf
          · intro _
            refine ⟨⟨v, sf.1, sf.2⟩, ?_, ?_⟩ <;>
              simp [unmarshall_elem, hint, hs, hl2a]

/-- Decoding `n` consecutive elements never leaks: on `FAIL` every
already-decoded element's buffer has been released and nothing partial
is handed back; on `OK` the caller receives exactly `n` elements and
the live allocations grow by exactly those elements' buffers. -/
theorem elems_heap (n : Nat) :
    ∀ bs h,
      ((unmarshall_elems n bs h).st = FAIL →
          (unmarshall_elems n bs h).val = none ∧
            (unmarshall_elems n bs h).heap.live = h.live) ∧
        ((unmarshall_elems n bs h).st = OK →
          ∃ es, (unmarshall_elems n bs h).val = some es ∧ es.length = n ∧
            (unmarshall_elems n bs h).heap.live
              = (es.map DecodedElem.nameBuf).reverse ++ h.live) := by
  induction n with
  | zero =>
    intro bs h
    constructor
    · intro hf
      simp [unmarshall_elems] at hf
    · intro _
      exact ⟨[], rfl, rfl, rfl⟩
  | succ n ih =>
    intro bs h
    have hel := elem_heap bs h
    cases he : unmarshall_elem bs h with
    | mk st val rest h1 =>
      cases st with
      | FAIL =>
        have hff := hel.1 (by rw [he])
        rw [he] at hff
        have hval : val = none := hff.1
        have hl1 : h1.live = h.live := hff.2
        subst hval
        constructor
        · intro _
          refine ⟨?_, ?_⟩ <;> simp [unmarshall_elems, he, hl1]
        · intro hok
          simp [unmarshall_elems, he] at hok
      | OK =>
        obtain ⟨e, hval, hl1⟩ := hel.2 (by rw [he])
        rw [he] at hval hl1
        have hvala : val = some e := hval
        have hl1a : h1.live = e.nameBuf :: h.live := hl1
        subst hvala
        have ihr := ih rest h1
        cases hrec : unmarshall_elems n rest h1 with
        | mk st2 val2 rest2 h2 =>
          cases st2 with
          | FAIL =>
            have hff := ihr.1 (by rw [hrec])
            rw [hrec] at hff
            have hval2 : val2 = none := hff.1
            have hl2 : h2.live = h1.live := hff.2
            subst hval2
            constructor
            · intro _
              refine ⟨?_, ?_⟩ <;>
                simp [unmarshall_elems, he, hrec, Heap.free, hl2, hl1a,
                  List.erase_cons_head]
            · intro hok
              simp [unmarshall_elems, he, hrec] at hok
          | OK =>
            obtain ⟨es, hval2, hlen2, hl2⟩ := ihr.2 (by rw [hrec])
            rw [hrec] at hval2 hl2
            have hval2a : val2 = some es := hval2
            have hl2a : h2.live = (es.map DecodedElem.nameBuf).reverse ++ h1.live := hl2
            subst hval2a
            constructor
            · intro hf
              simp [unmarshall_elems, he, hrec] at hf
            · intro _
              refine ⟨e :: es, ?_, ?_, ?_⟩
              · simp [unmarshall_elems, he, hrec]
              · simp [hlen2]
              · simp [unmarshall_elems, he, hrec, hl2a, hl1a,
                  List.reverse_cons, List.append_assoc]

/- ## Claim theorems -/

/-- C1: for every `protocol_int` value `v` in the representable range,
marshalling `v` with `marshall_intlike` and then unmarshalling from the
same connection with `unmarshall_intlike` returns `OK` and the value
`v`, consuming exactly the bytes that were written (whatever follows on
the connection is left untouched). -/
theorem intlike_roundtrip (v : Nat) (extra : List Nat) (h : v < 2 ^ 64) :
    unmarshall_intlike (marshall_intlike v ++ extra) = ⟨OK, v, extra⟩ := by
  rw [unmarshall_marshall_intlike, Nat.mod_eq_of_lt h]

theorem intlike_roundtrip_witness :
    (42 : Nat) < 2 ^ 64 ∧
      unmarshall_intlike (marshall_intlike 42 ++ [9]) = ⟨OK, 42, [9]⟩ :=
  ⟨by decide, intlike_roundtrip 42 [9] (by decide)⟩

/-- C2: for every string `s`, including the empty string and strings
with embedded zero bytes, unmarshalling what the string marshaller
encoded yields exactly the bytes of `s`, consuming exactly the bytes
that were written. -/
theorem string_roundtrip (s extra : List Nat) (h : s.length < 2 ^ 64) :
    unmarshall_string (marshall_string s ++ extra) = ⟨OK, s, extra⟩ := by
  have h1 : readBytes protocolIntSize (encodeInt s.length ++ (s ++ extra))
      = some (encodeInt s.length, s ++ extra) :=
    readBytes_append _ _ _ (natToLE_length _ _)
  have h2 : readBytes (decodeInt (encodeInt s.length)) (s ++ extra)
      = some (s, extra) := by
    rw [decodeInt_encodeInt, Nat.mod_eq_of_lt h]
    exact readBytes_append _ _ _ rfl
  simp [marshall_string, unmarshall_string, h1, h2]

theorem string_roundtrip_witness :
    ([104, 0, 105] : List Nat).length < 2 ^ 64 ∧
      unmarshall_string (marshall_string [104, 0, 105] ++ [7])
        = ⟨OK, [104, 0, 105], [7]⟩ :=
  ⟨by decide, string_roundtrip [104, 0, 105] [7] (by decide)⟩

/-- C3: when the next wire value carries a non-integer type tag,
`unmarshall_intlike` returns `FAIL` and consumes no bytes beyond the
tag itself: everything after the tag is still on the connection. -/
theorem intlike_tag_mismatch (t : Nat) (rest : List Nat) (h : t ≠ intTag) :
    (unmarshall_intlike (t :: rest)).st = FAIL ∧
      (unmarshall_intlike (t :: rest)).rest = rest := by
  simp [unmarshall_intlike, h]

theorem intlike_tag_mismatch_witness :
    stringTag ≠ intTag ∧
      (unmarshall_intlike (stringTag :: [3, 4])).st = FAIL ∧
      (unmarshall_intlike (stringTag :: [3, 4])).rest = [3, 4] :=
  ⟨by decide, intlike_tag_mismatch stringTag [3, 4] (by decide)⟩

/-- C5: `unmarshall_check v` succeeds exactly when the next wire value
is an integer-tagged value whose canonical 8-byte payload decodes to
`v`; in every other case (different decoded integer, non-integer tag,
truncated stream) the outcome is the single uniform `FAIL` status, the
only other value `status` has. -/
theorem unmarshall_check_ok_iff (v : Nat) (bs : List Nat) :
    ((unmarshall_check v bs).st = OK ↔
      ∃ payload rest, bs = intTag :: (payload ++ rest) ∧
        payload.length = protocolIntSize ∧ decodeInt payload = v) ∧
      ((unmarshall_check v bs).st = OK ∨ (unmarshall_check v bs).st = FAIL) := by
  constructor
  · constructor
    · intro hok
      match bs with
      | [] => simp [unmarshall_check, unmarshall_intlike] at hok
      | t :: rest =>
        by_cases ht : t = intTag
        · subst ht
          cases hr : readBytes protocolIntSize rest with
          | none => simp [unmarshall_check, unmarshall_intlike, hr] at hok
          | some p =>
            obtain ⟨payload, rest1⟩ := p
            have hs := readBytes_some_spec protocolIntSize rest payload rest1 hr
            simp only [unmarshall_check, unmarshall_intlike, if_pos rfl, hr] at hok
            by_cases hv : decodeInt payload = v
            · exact ⟨payload, rest1, by rw [hs.2], hs.1, hv⟩
            · simp [hv] at hok
        · simp [unmarshall_check, unmarshall_intlike, ht] at hok
    · rintro ⟨payload, rest, rfl, hlen, hdec⟩
      simp [unmarshall_check, unmarshall_intlike,
        readBytes_append _ _ _ hlen, hdec]
  · cases hst : (unmarshall_check v bs).st with
    | OK => exact Or.inl rfl
    | FAIL => exact Or.inr rfl

/-- C6: an enum-typed decode whose wire integer is not one of the known
values of the target enumeration returns `FAIL` instead of handing the
out-of-range value downstream. -/
theorem enum_out_of_range (known : List Nat) (v : Nat) (extra : List Nat)
    (hv : v < 2 ^ 64) (hk : v ∉ known) :
    unmarshall_enum known (marshall_intlike v ++ extra) = ⟨FAIL, 0, extra⟩ := by
  have h1 : unmarshall_intlike (marshall_intlike v ++ extra) = ⟨OK, v, extra⟩ := by
    rw [unmarshall_marshall_intlike, Nat.mod_eq_of_lt hv]
  simp [unmarshall_enum, h1, hk]

theorem enum_out_of_range_witness :
    (5 : Nat) < 2 ^ 64 ∧ (5 : Nat) ∉ ([0, 1, 2] : List Nat) ∧
      unmarshall_enum [0, 1, 2] (marshall_intlike 5 ++ []) = ⟨FAIL, 0, []⟩ :=
  ⟨by decide, by decide, enum_out_of_range [0, 1, 2] 5 [] (by decide) (by decide)⟩

/-- C7: a string decode whose declared length exceeds the bytes the
connection can still deliver (the stream ends early) returns `FAIL`,
never `OK` with a shortened string. -/
theorem string_truncated (lenB avail : List Nat)
    (hlen : lenB.length = protocolIntSize)
    (hshort : avail.length < decodeInt lenB) :
    (unmarshall_string (stringTag :: (lenB ++ avail))).st = FAIL := by
  simp [unmarshall_string, readBytes_append _ _ _ hlen,
    readBytes_short _ _ hshort]

theorem string_truncated_witness :
    (encodeInt 5).length = protocolIntSize ∧
      ([1, 2] : List Nat).length < decodeInt (encodeInt 5) ∧
      (unmarshall_string (stringTag :: (encodeInt 5 ++ [1, 2]))).st = FAIL :=
  ⟨by decide, by decide, string_truncated (encodeInt 5) [1, 2] (by decide) (by decide)⟩

/-- C8: the generic `unmarshall<T>` performs no range check: whatever
integer `v` is on the wire, the decode returns `OK` and assigns the
plain narrowing `v mod 2 ^ w` to the `w`-bit out-argument, even when
`v` is not representable in `T` (that is, even when `2 ^ w ≤ v`). -/
theorem unmarshallT_no_range_check (w v : Nat) (extra : List Nat)
    (hv : v < 2 ^ 64) :
    unmarshallT_unsigned w (marshall_intlike v ++ extra)
      = ⟨OK, v % 2 ^ w, extra⟩ := by
  have h1 : unmarshall_intlike (marshall_intlike v ++ extra) = ⟨OK, v, extra⟩ := by
    rw [unmarshall_marshall_intlike, Nat.mod_eq_of_lt hv]
  simp [unmarshallT_unsigned, h1]

theorem unmarshallT_no_range_check_witness :
    (300 : Nat) < 2 ^ 64 ∧ 2 ^ 8 ≤ 300 ∧
      unmarshallT_unsigned 8 (marshall_intlike 300 ++ [])
        = ⟨OK, 300 % 2 ^ 8, []⟩ :=
  ⟨by decide, by decide, unmarshallT_no_range_check 8 300 [] (by decide)⟩

/-- C9: the generic `marshall<T>` puts on the wire exactly the bytes
`marshall_intlike` puts for the converted value `(protocol_int) v` —
the integer tag followed by the canonical 8-byte encoding — so two
scalar values of different logical types that convert to the same
`protocol_int` are indistinguishable on the wire. -/
theorem marshallT_eq_intlike (v₁ v₂ : Int) :
    marshallT v₁ = marshall_intlike (toProtocolInt v₁) ∧
      marshallT v₁ = intTag :: encodeInt (toProtocolInt v₁) ∧
      (toProtocolInt v₁ = toProtocolInt v₂ → marshallT v₁ = marshallT v₂) := by
  refine ⟨rfl, rfl, fun h => ?_⟩
  simp [marshallT, h]

theorem marshallT_eq_intlike_witness :
    marshallT (-1) = marshall_intlike (toProtocolInt (-1)) ∧
      marshallT (-1) = intTag :: encodeInt (toProtocolInt (-1)) ∧
      marshallT (-1) = marshallT (2 ^ 64 - 1) :=
  ⟨(marshallT_eq_intlike (-1) (2 ^ 64 - 1)).1,
    (marshallT_eq_intlike (-1) (2 ^ 64 - 1)).2.1,
    (marshallT_eq_intlike (-1) (2 ^ 64 - 1)).2.2 (by decide)⟩

/-- C10: a signed scalar value `v` of a `w`-bit type is written as its
reduction mod `2 ^ 64` (the C++ conversion to `unsigned long long`),
and unmarshalling back into the same `w`-bit signed type recovers `v`
exactly; in particular negative values round-trip through the unsigned
canonical representation without loss. -/
theorem signed_roundtrip (w : Nat) (v : Int) (extra : List Nat)
    (hw1 : 1 ≤ w) (hw2 : w ≤ 64)
    (hlo : -(2 ^ (w - 1)) ≤ v) (hhi : v < 2 ^ (w - 1)) :
    marshallT v = marshall_intlike ((v % (2:Int) ^ 64).toNat) ∧
      unmarshallT_signed w (marshallT v ++ extra) = ⟨OK, v, extra⟩ := by
  refine ⟨rfl, ?_⟩
  have h1 : unmarshall_intlike (marshallT v ++ extra)
      = ⟨OK, toProtocolInt v, extra⟩ := by
    rw [marshallT, unmarshall_marshall_intlike,
      Nat.mod_eq_of_lt (toProtocolInt_lt v)]
  simp [unmarshallT_signed, h1, toSigned_toProtocolInt w v hw1 hw2 hlo hhi]

theorem signed_roundtrip_witness :
    (1 : Nat) ≤ 32 ∧ (32 : Nat) ≤ 64 ∧
      -((2:Int) ^ (32 - 1)) ≤ -5 ∧ (-5 : Int) < 2 ^ (32 - 1) ∧
      unmarshallT_signed 32 (marshallT (-5) ++ []) = ⟨OK, -5, []⟩ :=
  ⟨by decide, by decide, by decide, by decide,
    (signed_roundtrip 32 (-5) [] (by decide) (by decide)
      (by decide) (by decide)).2⟩

/-- C4: if any element of an array decode fails partway through, the
whole operation returns `FAIL`, nothing partial is handed to the
caller, and every already-decoded element's owned buffer has been
released (the live allocations are exactly what they were before the
call); on `OK` the caller receives a fully-constructed array whose
elements own exactly the buffers the decode allocated. -/
theorem array_decode_ownership (bs : List Nat) (h : Heap) :
    ((unmarshall_array bs h).st = FAIL →
        (unmarshall_array bs h).val = none ∧
          (unmarshall_array bs h).heap.live = h.live) ∧
      ((unmarshall_array bs h).st = OK →
        ∃ es, (unmarshall_array bs h).val = some es ∧
          (unmarshall_array bs h).heap.live
            = (es.map DecodedElem.nameBuf).reverse ++ h.live) := by
  match bs with
  | [] => simp [unmarshall_array]
  | t :: rest =>
    by_cases ht : t = arrayTag
    · subst ht
      cases hr : readBytes protocolIntSize rest with
      | none => simp [unmarshall_array, hr]
      | some p =>
        obtain ⟨lenB, rest1⟩ := p
        have heq : unmarshall_array (arrayTag :: rest) h
            = unmarshall_elems (decodeInt lenB) rest1 h := by
          simp [unmarshall_array, hr]
        have hes := elems_heap (decodeInt lenB) rest1 h
        rw [heq]
        refine ⟨hes.1, fun hok => ?_⟩
        obtain ⟨es, h1, _, h3⟩ := hes.2 hok
        exact ⟨es, h1, h3⟩
    · simp [unmarshall_array, ht]

theorem array_decode_ownership_witness :
    ((unmarshall_array exampleTruncatedArrayBytes ⟨0, []⟩).st = FAIL ∧
        (unmarshall_array exampleTruncatedArrayBytes ⟨0, []⟩).val = none ∧
        (unmarshall_array exampleTruncatedArrayBytes ⟨0, []⟩).heap.live = []) ∧
      ((unmarshall_array exampleOkArrayBytes ⟨0, []⟩).st = OK ∧
        ∃ es, (unmarshall_array exampleOkArrayBytes ⟨0, []⟩).val = some es ∧
          (unmarshall_array exampleOkArrayBytes ⟨0, []⟩).heap.live
            = (es.map DecodedElem.nameBuf).reverse ++ []) :=
  ⟨⟨by decide,
      ((array_decode_ownership exampleTruncatedArrayBytes ⟨0, []⟩).1 (by decide)).1,
      ((array_decode_ownership exampleTruncatedArrayBytes ⟨0, []⟩).1 (by decide)).2⟩,
    ⟨by decide,
      (array_decode_ownership exampleOkArrayBytes ⟨0, []⟩).2 (by decide)⟩⟩


end cc1_plugin
